import Mathlib

/-!
Shallow embedding of the glob2 library (src/glob2/impl.py): the shell-glob
pattern translator with capture groups, the recursive directory walk for the
recursive wildcard segment, and the pattern resolver.

Strings (Python str) are modelled as lists of code units (List Char); the
filesystem capability set (listdir / isdir / islink / lexists) is an abstract
record, with a failing listdir (os.error) modelled as none.  Paths follow the
POSIX rules of os.path (sep is a slash), matching the platform the source's
defaults describe; os.path.normcase is the identity on POSIX.
-/

namespace Glob2

/-- Str abbreviates the code-unit-sequence type used for patterns and paths. -/
abbrev Str := List Char

/-- Source: magic_check = re.compile of the class holding the three wildcard
characters; has_magic reports whether any of them occurs in the string. -/
def has_magic (s : Str) : Bool :=
  s.any (fun c => c = '*' || c = '?' || c = '[')

/-- Source: _ishidden(path) evaluates path[0] == a dot.  Indexing an empty
string raises in Python, so the faithful model is partial: none on the empty
string, otherwise whether the first code unit is a dot. -/
def ishiddenOpt (p : Str) : Option Bool :=
  p.head?.map (fun c => c = '.')

/-- Total restatement of the hidden test used in specifications: the first
code unit exists and is a dot (false on the empty string). -/
def ishidden (p : Str) : Bool :=
  p.head? = some '.'

/-- Source: the predicate of the hidden filter, the Python expression
"not x or not _ishidden(x)" with its left-to-right short-circuit: an empty
name is kept without ever indexing into it. -/
def pyKeep (x : Str) : Option Bool :=
  if x.isEmpty then some true else (ishiddenOpt x).map (fun b => !b)

/-- Source: os.path.join on POSIX for two components: an absolute second
component replaces the first; an empty or slash-terminated first component is
concatenated directly; otherwise a slash is inserted. -/
def osJoin (a b : Str) : Str :=
  if b.head? = some '/' then b
  else if a = [] then b
  else if a.getLast? = some '/' then a ++ b
  else a ++ '/' :: b

/-- Source: the re.sub in _join_paths replacing every slash or backslash with
the configured separator; applied only when a separator is configured. -/
def sepNorm (sep : Option Char) (p : Str) : Str :=
  match sep with
  | none => p
  | some s => p.map (fun c => if c = '/' || c = '\\' then s else c)

/-- Source: _join_paths([a, b], sep): os.path.join followed by the optional
separator substitution. -/
def joinP (sep : Option Char) (a b : Str) : Str :=
  sepNorm sep (osJoin a b)

/-- Helper for os.path.split: strip trailing slashes (str.rstrip of the
separator). -/
def rstripSlash (l : Str) : Str :=
  (l.reverse.dropWhile (fun c => c = '/')).reverse

/-- Source: os.path.split on POSIX, the tail component: everything after the
last slash. -/
def osSplitTail (p : Str) : Str :=
  (p.reverse.takeWhile (fun c => c ≠ '/')).reverse

/-- Source: os.path.split on POSIX, the head component: the part before the
tail, stripped of trailing slashes unless it consists only of slashes (or is
empty). -/
def osSplitHead (p : Str) : Str :=
  if p.take (p.length - (osSplitTail p).length) ≠ [] ∧
      ¬ (p.take (p.length - (osSplitTail p).length)).all (fun c => c = '/') then
    rstripSlash (p.take (p.length - (osSplitTail p).length))
  else p.take (p.length - (osSplitTail p).length)

/-- Source: os.path.split on POSIX, head and tail together. -/
def osSplit (p : Str) : Str × Str :=
  (osSplitHead p, osSplitTail p)

/-- Tok is the alphabet of the translated pattern: the source's translate
builds a regex string from exactly these fragments, a capturing dot-star for
a star, a capturing dot for a question mark, a capturing character class, and
escaped literal characters. -/
inductive Tok where
  | star : Tok
  | qmark : Tok
  | cls : Bool → Str → Tok
  | lit : Char → Tok
deriving DecidableEq

/-- Source: the scan in translate looking for the closing bracket of a
character class.  Given the characters after the opening bracket, the scan
start skips a leading bang, then one immediately following closing bracket;
the result is the offset of the closing bracket, or none when the class is
unclosed. -/
def classEnd (l : Str) : Option Nat :=
  let s : Nat :=
    match l with
    | '!' :: rest => if rest.head? = some ']' then 2 else 1
    | ']' :: _ => 1
    | _ => 0
  ((l.drop s).findIdx? (fun c => c = ']')).map (fun k => k + s)

/-- Source: the class-content post-processing in translate: a leading bang
becomes class negation; a leading caret is escaped (stays an ordinary member);
backslashes are doubled, i.e. stay ordinary members. -/
def mkCls (stuff : Str) : Tok :=
  match stuff with
  | '!' :: rest => Tok.cls true rest
  | s => Tok.cls false s

/-- Source: translate(pat), the left-to-right scan of a segment producing the
token list (regex fragments).  A star and a question mark become capturing
wildcards; an opening bracket with a closing bracket in range becomes a
capturing class consuming up to it; an unclosed opening bracket degrades to a
literal; every other character is an escaped literal. -/
def translate : Str → List Tok
  | [] => []
  | c :: rest =>
    if c = '*' then Tok.star :: translate rest
    else if c = '?' then Tok.qmark :: translate rest
    else if c = '[' then
      match classEnd rest with
      | none => Tok.lit '[' :: translate rest
      | some k => mkCls (rest.take k) :: translate (rest.drop (k + 1))
    else Tok.lit c :: translate rest
termination_by l => l.length
decreasing_by
  all_goals simp [List.length_drop]
  all_goals omega

/-- Membership in a character class with regex range semantics: a dash
between two members denotes an inclusive range, otherwise characters denote
themselves. -/
def classMember : Str → Char → Bool
  | a :: '-' :: b :: rest, c => (a ≤ c && c ≤ b) || classMember rest c
  | a :: rest, c => (a = c) || classMember rest c
  | [], _ => false

/-- Character comparison under the case-sensitivity flag; the insensitive
branch models re.IGNORECASE by case folding. -/
def chMatch (cs : Bool) (a b : Char) : Bool :=
  if cs then a = b else a.toLower = b.toLower

/-- Class test under negation and the case-sensitivity flag; the insensitive
branch models re.IGNORECASE by also trying the folded variants. -/
def clsMatch (cs : Bool) (neg : Bool) (content : Str) (c : Char) : Bool :=
  let m :=
    if cs then classMember content c
    else classMember content c || classMember content c.toLower ||
         classMember content c.toUpper
  if neg then !m else m

mutual

/-- Anchored matching of a token list against a name (re.match of the
translated regex, which ends in an end-of-string anchor), returning the list
of captured substrings, one per wildcard token in source order; none when the
name does not match.  A star is greedy, as a dot-star is in a Python regex. -/
def matchSeg (cs : Bool) : List Tok → Str → Option (List Str)
  | [], xs => if xs.isEmpty then some [] else none
  | Tok.lit c :: ts, xs =>
    match xs with
    | [] => none
    | x :: xs2 => if chMatch cs x c then matchSeg cs ts xs2 else none
  | Tok.qmark :: ts, xs =>
    match xs with
    | [] => none
    | x :: xs2 => (matchSeg cs ts xs2).map (fun gs => [x] :: gs)
  | Tok.cls neg content :: ts, xs =>
    match xs with
    | [] => none
    | x :: xs2 =>
      if clsMatch cs neg content x then (matchSeg cs ts xs2).map (fun gs => [x] :: gs)
      else none
  | Tok.star :: ts, xs => matchStar cs ts [] xs
termination_by ts xs => (ts.length, xs.length + 1)

/-- Greedy search for the split of the remaining name at a star: the star's
capture is the accumulator plus the longest further prefix of the rest for
which the remaining tokens match what is left. -/
def matchStar (cs : Bool) (ts : List Tok) : Str → Str → Option (List Str)
  | acc, [] => (matchSeg cs ts []).map (fun gs => acc :: gs)
  | acc, x :: xs =>
    match matchStar cs ts (acc ++ [x]) xs with
    | some r => some r
    | none => (matchSeg cs ts (x :: xs)).map (fun gs => acc :: gs)
termination_by a xs => (ts.length + 1, xs.length)

end

/-- Generic append-of-lists combinator used to model the nested generator
loops of the source (a for-loop extending or yielding per element). -/
def flatMapL {α β : Type} (f : α → List β) : List α → List β
  | [] => []
  | a :: l => f a ++ flatMapL f l

/-- Resolver configuration (the Globber instance variables and their source
defaults; case sensitivity defaults to true on POSIX). -/
structure Config where
  with_matches : Bool
  include_hidden : Bool
  followlinks : Bool
  norm_paths : Option Bool
  case_sensitive : Bool
  sep : Option Char

/-- Source defaults of the Globber class attributes on POSIX. -/
def defaultConfig : Config :=
  ⟨false, false, false, none, true, none⟩

/-- Filesystem capability set: the four staticmethods of Globber.  A listdir
returning none models an os.error raised by the listing. -/
structure FS where
  listdir : Str → Option (List Str)
  isdir : Str → Bool
  islink : Str → Bool
  lexists : Str → Bool

/-- Source: Globber._norm_paths: with norm_paths None, every slash or
backslash is replaced by the configured separator (os.sep, a slash, when none
is configured); with norm_paths set, os.path.normcase is applied (the
identity on POSIX) or the path is left untouched. -/
def normPath (g : Config) (p : Str) : Str :=
  match g.norm_paths with
  | none => p.map (fun c => if c = '/' || c = '\\' then g.sep.getD '/' else c)
  | some true => p
  | some false => p

/-- Source: Globber.filter(names, pat): normalize and compile the pattern,
and keep each name whose normalization matches, paired with the tuple of its
normalized capture groups, in input order. -/
def filterNames (g : Config) (names : List Str) (pat : Str) :
    List (Str × List Str) :=
  names.filterMap (fun name =>
    (matchSeg g.case_sensitive (translate (normPath g pat)) (normPath g name)).map
      (fun gs => (name, gs.map (normPath g))))

/-- Source: Globber.walk(top): list the directory (an os.error yields
nothing), yield the directory with its entries, then recurse into each entry
unless it is a symlink and links are not followed.  The fuel argument bounds
the recursion depth of the model; C8 shows the result is fuel-independent
once the fuel covers the (finite, acyclic) directory graph. -/
def walkF (g : Config) (fs : FS) : Nat → Str → List (Str × List Str)
  | 0, _ => []
  | fuel + 1, top =>
    match fs.listdir top with
    | none => []
    | some names =>
      (top, names) ::
        flatMapL (fun name =>
          if g.followlinks || !fs.islink (joinP g.sep top name) then
            walkF g fs fuel (joinP g.sep top name)
          else []) names

/-- Source: the candidate-name list the recursive wildcard segment builds in
resolve_pattern: the empty name first (only when the root is asked for, the
globstar_with_root flag), then every walked entry made relative to the base
directory (the slice of top past the directory prefix, joined with the entry
name). -/
def globstarNames (g : Config) (fs : FS) (fuel : Nat) (dirname : Str)
    (globstar_with_root : Bool) : List Str :=
  (if globstar_with_root then [([] : Str)] else []) ++
    flatMapL (fun te =>
      te.2.map (fun s => joinP g.sep (te.1.drop (dirname.length + 1)) s))
      (walkF g fs fuel dirname)

/-- Source: the hidden filter of resolve_pattern: names whose first code unit
is a dot are removed — empty names kept by the short-circuit — unless hidden
entries are included or the (possibly reset) pattern starts with a dot.  The
getD encodes the unguarded _ishidden(pattern) call of the source, which never
sees an empty pattern there. -/
def hiddenFilter (g : Config) (pat : Str) (names : List Str) : List Str :=
  if !g.include_hidden && !((ishiddenOpt pat).getD false) then
    names.filter (fun x => (pyKeep x).getD false)
  else names

/-- Source: Globber.resolve_pattern(dirname, pattern, globstar_with_root).
With no wildcard in the pattern: an empty pattern filters for directories,
otherwise a pure existence check, with no listing.  With the recursive
wildcard segment: the candidates are globstarNames of the directory (the
working directory when it is empty) and the pattern is reset to a single
star before the hidden filter and the match; any other wildcard pattern
lists the directory — an os.error yielding no result — then hidden-filters
and matches the entries. -/
def resolve_pattern (g : Config) (fs : FS) (fuel : Nat) (dirname0 pattern : Str)
    (globstar_with_root : Bool) : List (Str × List Str) :=
  if has_magic pattern = false then
    if pattern = [] then
      if fs.isdir dirname0 then [(pattern, [])] else []
    else if fs.lexists (joinP g.sep dirname0 pattern) then [(pattern, [])]
    else []
  else if pattern = ['*', '*'] then
    filterNames g
      (hiddenFilter g ['*']
        (globstarNames g fs fuel (if dirname0 = [] then ['.'] else dirname0)
          globstar_with_root)) ['*']
  else
    match fs.listdir (if dirname0 = [] then ['.'] else dirname0) with
    | none => []
    | some names => filterNames g (hiddenFilter g pattern names) pattern

/-- Helper: stripping trailing slashes yields a prefix of the original. -/
theorem rstripSlash_isPre (l : Str) : rstripSlash l <+: l := by
  have h2 : (rstripSlash l).reverse <:+ l.reverse := by
    unfold rstripSlash
    rw [List.reverse_reverse]
    exact List.dropWhile_suffix _
  exact List.reverse_suffix.mp h2

/-- Helper for the termination of the directory-prefix recursion: the head of
os.path.split is a prefix of the argument (a take followed by a strip of
trailing slashes). -/
theorem osSplit_fst_isPre (p : Str) : (osSplit p).1 <+: p := by
  show osSplitHead p <+: p
  unfold osSplitHead
  split
  · exact (rstripSlash_isPre _).trans (List.take_prefix _ _)
  · exact List.take_prefix _ _

/-- Helper for the termination of the directory-prefix recursion: whenever
the head of os.path.split differs from the argument it is strictly shorter. -/
theorem osSplit_fst_length_lt (p : Str) (h : (osSplit p).1 ≠ p) :
    (osSplit p).1.length < p.length := by
  have hpre := osSplit_fst_isPre p
  rcases Nat.lt_or_ge (osSplit p).1.length p.length with hlt | hge
  · exact hlt
  · exact absurd (hpre.eq_of_length (Nat.le_antisymm hpre.length_le hge)) h

/-- Source: Globber._iglob(pathname, rootcall).  Without wildcards, a pure
existence check.  Otherwise split off the basename; when the directory part
is itself magic and differs from the whole path (the drive/UNC guard),
recursively resolve it as a non-root call, else use it literally; then
resolve the basename under every candidate directory with
globstar_with_root = not rootcall, joining paths and concatenating capture
groups. -/
def iglobAux (g : Config) (fs : FS) (fuel : Nat) : Str → Bool → List (Str × List Str)
  | pathname, rootcall =>
    if has_magic pathname = false then
      if fs.lexists pathname then [(pathname, [])] else []
    else
      flatMapL (fun dg =>
        (resolve_pattern g fs fuel dg.1 ((osSplit pathname).2) (!rootcall)).map
          (fun ng => (joinP g.sep dg.1 ng.1, dg.2 ++ ng.2)))
        (if h : (osSplit pathname).1 ≠ pathname ∧ has_magic ((osSplit pathname).1) then
          iglobAux g fs fuel ((osSplit pathname).1) false
        else [((osSplit pathname).1, [])])
termination_by pathname _ => pathname.length
decreasing_by
  exact osSplit_fst_length_lt _ h.1

/-- Source: Globber.iglob / Globber.glob at the root call (the with_matches
projection drops the capture groups and is omitted from the model's type). -/
def iglob (g : Config) (fs : FS) (fuel : Nat) (pathname : Str) :
    List (Str × List Str) :=
  iglobAux g fs fuel pathname true

/-- Wellformedness of a filesystem: a directory listing never reports an
empty entry name (POSIX directory entries are nonempty). -/
def FSok (fs : FS) : Prop :=
  ∀ d l, fs.listdir d = some l → ∀ e ∈ l, e ≠ []

/-- Depth bound for the directory walk from a given root: every child the
walk would descend into is bounded one level lower.  A finite acyclic
directory graph admits such a bound at every node. -/
inductive WalkBounded (g : Config) (fs : FS) : Str → Nat → Prop
  | step (top : Str) (n : Nat)
      (h : ∀ names, fs.listdir top = some names →
        ∀ name ∈ names,
          (g.followlinks || !fs.islink (joinP g.sep top name)) = true →
          WalkBounded g fs (joinP g.sep top name) n) :
      WalkBounded g fs top (n + 1)

/-- Count of capture groups a token list produces (every token except an
escaped literal is one parenthesised group in the source's regex). -/
def countGroups (ts : List Tok) : Nat :=
  ts.countP (fun t =>
    match t with
    | Tok.lit _ => false
    | _ => true)

/-- Concrete filesystem on which every operation fails or is false: listings
raise, nothing exists. -/
def fsNone : FS :=
  ⟨fun _ => none, fun _ => false, fun _ => false, fun _ => false⟩

/-- Concrete filesystem in which only the path a exists (lexists); listings
fail. -/
def fsA : FS :=
  ⟨fun _ => none, fun _ => false, fun _ => false, fun p => p = ['a']⟩

/-- Configuration equal to the defaults except that hidden entries are
included. -/
def gInc : Config :=
  ⟨false, true, false, none, true, none⟩

/-- Concrete filesystem whose every listing holds the single hidden entry
named dot h. -/
def fsHid : FS :=
  ⟨fun _ => some [['.', 'h']], fun _ => false, fun _ => false, fun _ => false⟩

/-- Concrete filesystem for the recursive-wildcard hidden-name tests:
directory b holds a and the hidden .t; b/a holds the hidden directory .h;
b/a/.h holds x; everything else fails to list. -/
def fs9 : FS :=
  ⟨fun d =>
    if d = ['b'] then some [['a'], ['.', 't']]
    else if d = ['b', '/', 'a'] then some [['.', 'h']]
    else if d = ['b', '/', 'a', '/', '.', 'h'] then some [['x']]
    else none,
   fun _ => false, fun _ => false, fun _ => false⟩

/-- Helper: a star over an otherwise empty token list captures the whole
remaining input (accumulator version). -/
theorem matchStar_nilToks (cs : Bool) (acc rest : Str) :
    matchStar cs [] acc rest = some [acc ++ rest] := by
  induction rest generalizing acc with
  | nil => simp [matchStar, matchSeg]
  | cons x xs ih => simp [matchStar, ih]

/-- Helper: the single-star pattern matches every name, with one capture
equal to the whole name (the group the reset pattern of the recursive
wildcard produces). -/
theorem matchSeg_star_only (cs : Bool) (xs : Str) :
    matchSeg cs [Tok.star] xs = some [xs] := by
  simp [matchSeg, matchStar_nilToks]

/-- Helper: a run of literal tokens consumes exactly that literal prefix of
the name and adds no capture. -/
theorem matchSeg_lit_append (l : Str) (ts : List Tok) (N : Str) :
    matchSeg true (l.map Tok.lit ++ ts) N =
      if l <+: N then matchSeg true ts (N.drop l.length) else none := by
  induction l generalizing N with
  | nil => simp [List.nil_prefix]
  | cons c l ih =>
    cases N with
    | nil =>
      rw [if_neg (by simp)]
      simp [matchSeg]
    | cons x N2 =>
      simp only [List.map_cons, List.cons_append, matchSeg]
      by_cases hxc : x = c
      · subst hxc
        rw [if_pos (by simp [chMatch]), ih]
        by_cases hp : l <+: N2
        · rw [if_pos hp, if_pos (List.cons_prefix_cons.mpr ⟨rfl, hp⟩)]
          simp
        · rw [if_neg hp, if_neg (fun hc => hp (List.cons_prefix_cons.mp hc).2)]
      · rw [if_neg (by simp [chMatch, hxc]),
          if_neg (fun hc => hxc ((List.cons_prefix_cons.mp hc).1).symm)]

/-- Helper: a pure literal token list matches exactly the literal itself,
with no captures. -/
theorem matchSeg_lits (suf M : Str) :
    matchSeg true (suf.map Tok.lit) M = if M = suf then some [] else none := by
  have h := matchSeg_lit_append suf [] M
  rw [List.append_nil] at h
  rw [h]
  by_cases hp : suf <+: M
  · rw [if_pos hp]
    obtain ⟨t, ht⟩ := hp
    by_cases he : M = suf
    · subst he
      simp [matchSeg]
    · have htne : t ≠ [] := by
        rintro rfl
        exact he (by rw [← ht, List.append_nil])
      rw [← ht, List.drop_left]
      simp [matchSeg, he, htne]
  · have hns : ¬ M = suf := fun he => hp (by rw [he])
    rw [if_neg hp, if_neg hns]

/-- Helper: the greedy star followed by a literal run succeeds exactly when
the literal is a suffix of the remaining name, capturing the accumulator plus
everything before that suffix. -/
theorem matchStar_lits (suf : Str) (acc rest : Str) :
    matchStar true (suf.map Tok.lit) acc rest =
      if suf <:+ rest then some [acc ++ rest.take (rest.length - suf.length)]
      else none := by
  induction rest generalizing acc with
  | nil =>
    simp only [matchStar, matchSeg_lits]
    by_cases h : suf = []
    · subst h
      simp
    · have h1 : ¬ suf <:+ [] := by rw [List.suffix_nil]; exact h
      have h2 : ¬ ([] : Str) = suf := fun hh => h hh.symm
      rw [if_neg h2, if_neg h1]
      simp
  | cons x xs ih =>
    simp only [matchStar, ih]
    by_cases h1 : suf <:+ xs
    · have h2 : suf <:+ x :: xs := List.suffix_cons_iff.mpr (Or.inr h1)
      have h3 : suf.length ≤ xs.length := h1.length_le
      rw [if_pos h1, if_pos h2]
      have h4 : xs.length + 1 - suf.length = (xs.length - suf.length) + 1 := by omega
      simp [h4, List.append_assoc]
    · rw [if_neg h1, matchSeg_lits]
      by_cases h2 : x :: xs = suf
      · have hlen : suf.length = xs.length + 1 := by rw [← h2]; rfl
        rw [if_pos h2, if_pos (List.suffix_cons_iff.mpr (Or.inl h2.symm))]
        have hz : (x :: xs).length - suf.length = 0 := by
          simp [hlen]
        rw [hz]
        simp
      · rw [if_neg h2, if_neg]
        · simp
        · intro hc
          rcases List.suffix_cons_iff.mp hc with hh | hh
          · exact h2 hh.symm
          · exact h1 hh

/-- Helper: a star then a literal run matches exactly the names ending in the
literal, with one capture holding everything before it. -/
theorem matchSeg_star_lits (suf M : Str) :
    matchSeg true (Tok.star :: suf.map Tok.lit) M =
      if suf <:+ M then some [M.take (M.length - suf.length)] else none := by
  simp [matchSeg, matchStar_lits]

/-- Helper: translate emits an escaped literal for any non-wildcard
character. -/
theorem translate_cons_plain (c : Char) (rest : Str)
    (h1 : c ≠ '*') (h2 : c ≠ '?') (h3 : c ≠ '[') :
    translate (c :: rest) = Tok.lit c :: translate rest := by
  rw [translate]
  simp [h1, h2, h3]

/-- Helper: translate emits a star token for a star character. -/
theorem translate_star_cons (rest : Str) :
    translate ('*' :: rest) = Tok.star :: translate rest := by
  rw [translate]
  simp

/-- Helper: a wildcard-free block translates to its literal tokens, the rest
translating independently. -/
theorem translate_nomagic_append (l r : Str) :
    has_magic l = false → translate (l ++ r) = l.map Tok.lit ++ translate r := by
  induction l with
  | nil =>
    intro _
    simp
  | cons c l ih =>
    intro h
    simp only [has_magic, List.any_cons, Bool.or_eq_false_iff,
      decide_eq_false_iff_not] at h
    obtain ⟨⟨⟨hA, hB⟩, hC⟩, hrest⟩ := h
    rw [List.cons_append, translate_cons_plain c _ hA hB hC, List.map_cons,
      List.cons_append]
    rw [ih hrest]

/-- Helper: normalization of the empty string is the empty string. -/
theorem normPath_nil (g : Config) : normPath g [] = [] := by
  unfold normPath
  cases g.norm_paths with
  | none => rfl
  | some b => cases b <;> rfl

/-- Helper: path normalization is idempotent (substituting separators twice
equals doing it once; the other modes are the identity). -/
theorem normPath_idem (g : Config) (p : Str) :
    normPath g (normPath g p) = normPath g p := by
  unfold normPath
  cases g.norm_paths with
  | none =>
    rw [List.map_map]
    apply List.map_congr_left
    intro c _
    simp only [Function.comp_apply]
    by_cases hc : (c = '/' || c = '\\') = true
    · rw [if_pos hc]
      by_cases hs : (g.sep.getD '/' = '/' || g.sep.getD '/' = '\\') = true
      · rw [if_pos hs]
      · rw [if_neg hs]
    · rw [if_neg hc, if_neg hc]
  | some b => cases b <;> rfl

/-- Helper: normalization leaves the one-star pattern unchanged. -/
theorem normPath_star (g : Config) : normPath g ['*'] = ['*'] := by
  unfold normPath
  cases g.norm_paths with
  | none => simp
  | some b => cases b <;> rfl

/-- Helper: translating the one-star pattern yields the single star token. -/
theorem translate_star : translate ['*'] = [Tok.star] := by
  rw [show (['*'] : Str) = '*' :: [] from rfl, translate_star_cons, translate]

/-- Helper: Globber.filter with the one-star pattern keeps every name, the
single capture being the normalized name. -/
theorem filterNames_star (g : Config) (names : List Str) :
    filterNames g names ['*'] = names.map (fun n => (n, [normPath g n])) := by
  unfold filterNames
  rw [normPath_star, translate_star]
  induction names with
  | nil => rfl
  | cons n ns ih =>
    rw [List.filterMap_cons, List.map_cons, matchSeg_star_only]
    simp only [Option.map_some', List.map_cons, List.map_nil]
    rw [ih, normPath_idem]

/-- Helper: every result of Globber.filter is one of the input names, and its
groups come from a successful match of the normalized name. -/
theorem mem_filterNames {g : Config} {names : List Str} {pat : Str}
    {r : Str × List Str} (h : r ∈ filterNames g names pat) :
    r.1 ∈ names ∧ ∃ gs,
      matchSeg g.case_sensitive (translate (normPath g pat)) (normPath g r.1) =
        some gs ∧ r.2 = gs.map (normPath g) := by
  unfold filterNames at h
  rw [List.mem_filterMap] at h
  obtain ⟨name, hn, hm⟩ := h
  rw [Option.map_eq_some'] at hm
  obtain ⟨gs, hgs, hr⟩ := hm
  subst hr
  exact ⟨hn, gs, hgs, rfl⟩

/-- Helper: membership in the model's flat-map combinator. -/
theorem mem_flatMapL {α β : Type} (f : α → List β) (l : List α) (b : β) :
    b ∈ flatMapL f l ↔ ∃ a ∈ l, b ∈ f a := by
  induction l with
  | nil => simp [flatMapL]
  | cons x xs ih => simp [flatMapL, List.mem_append, ih]

/-- Helper: the flat-map combinator is pointwise congruent. -/
theorem flatMapL_congr {α β : Type} {f f2 : α → List β} {l : List α}
    (h : ∀ a ∈ l, f a = f2 a) : flatMapL f l = flatMapL f2 l := by
  induction l with
  | nil => rfl
  | cons x xs ih =>
    unfold flatMapL
    rw [h x (List.mem_cons_self x xs), ih (fun a ha => h a (List.mem_cons_of_mem x ha))]

/-- Helper: a directory whose listing raises contributes nothing to the
walk. -/
theorem walkF_listdir_none (g : Config) (fs : FS) (fuel : Nat) (top : Str)
    (h : fs.listdir top = none) : walkF g fs fuel top = [] := by
  cases fuel with
  | zero => rfl
  | succ n =>
    rw [walkF, h]

/-- Helper: every pair the walk yields consists of a directory and exactly
its successful listing, so unreadable directories never contribute
entries. -/
theorem walkF_mem_listdir (g : Config) (fs : FS) :
    ∀ (fuel : Nat) (top t : Str) (es : List Str),
      (t, es) ∈ walkF g fs fuel top → fs.listdir t = some es := by
  intro fuel
  induction fuel with
  | zero =>
    intro top t es h
    simp [walkF] at h
  | succ n ih =>
    intro top t es h
    rw [walkF] at h
    cases hl : fs.listdir top with
    | none =>
      rw [hl] at h
      simp at h
    | some names =>
      rw [hl] at h
      rcases List.mem_cons.mp h with h1 | h2
      · rw [Prod.mk.injEq] at h1
        obtain ⟨h1a, h1b⟩ := h1
        rw [h1a, h1b]
        exact hl
      · rw [mem_flatMapL] at h2
        obtain ⟨name, hname, hmem⟩ := h2
        by_cases hc : (g.followlinks || !fs.islink (joinP g.sep top name)) = true
        · rw [if_pos hc] at hmem
          exact ih _ _ _ hmem
        · rw [if_neg hc] at hmem
          simp at hmem

/-- Helper: under a depth bound for the walked directory graph, the walk is
independent of the fuel once the fuel covers the bound (the model's
termination statement for Globber.walk). -/
theorem walkF_stable (g : Config) (fs : FS) (top : Str) (n : Nat)
    (hb : WalkBounded g fs top n) :
    ∀ f1 f2, n ≤ f1 → n ≤ f2 → walkF g fs f1 top = walkF g fs f2 top := by
  induction hb with
  | step top2 m hchild ih =>
    intro f1 f2 h1 h2
    cases f1 with
    | zero => omega
    | succ f1p =>
      cases f2 with
      | zero => omega
      | succ f2p =>
        rw [walkF, walkF]
        cases hl : fs.listdir top2 with
        | none => rfl
        | some names =>
          dsimp only
          congr 1
          apply flatMapL_congr
          intro name hname
          by_cases hc : (g.followlinks || !fs.islink (joinP g.sep top2 name)) = true
          · rw [if_pos hc, if_pos hc]
            exact ih names hl name hname hc f1p f2p (by omega) (by omega)
          · rw [if_neg hc, if_neg hc]

/-- Helper: unfolding resolve_pattern at the recursive wildcard segment. -/
theorem resolve_pattern_globstar (g : Config) (fs : FS) (fuel : Nat)
    (dn : Str) (root : Bool) :
    resolve_pattern g fs fuel dn ['*', '*'] root =
      filterNames g
        (hiddenFilter g ['*']
          (globstarNames g fs fuel (if dn = [] then ['.'] else dn) root))
        ['*'] := by
  unfold resolve_pattern
  rw [if_neg (by decide), if_pos rfl]

/-- Helper: unfolding resolve_pattern at a wildcard pattern other than the
recursive one: list, hidden-filter, match; a failed listing yields nothing. -/
theorem resolve_pattern_magic_other (g : Config) (fs : FS) (fuel : Nat)
    (dn pattern : Str) (root : Bool)
    (hm : has_magic pattern = true) (hne : pattern ≠ ['*', '*']) :
    resolve_pattern g fs fuel dn pattern root =
      match fs.listdir (if dn = [] then ['.'] else dn) with
      | none => []
      | some names => filterNames g (hiddenFilter g pattern names) pattern := by
  unfold resolve_pattern
  rw [if_neg (by simp [hm]), if_neg hne]

/-- Helper: the hidden filter of an empty candidate list is empty. -/
theorem hiddenFilter_nil (g : Config) (pat : Str) :
    hiddenFilter g pat [] = [] := by
  unfold hiddenFilter
  split <;> rfl

/-- Helper: the hidden filter always keeps an empty name at the head (the
short-circuited guard of the source). -/
theorem hiddenFilter_nil_cons (g : Config) (pat : Str) (l : List Str) :
    hiddenFilter g pat ([] :: l) = [] :: hiddenFilter g pat l := by
  unfold hiddenFilter
  split
  · rw [List.filter_cons]
    rfl
  · rfl

/-- Helper: the hidden filter only removes names, it never adds any. -/
theorem hiddenFilter_sub {g : Config} {pat : Str} {names : List Str} {x : Str}
    (h : x ∈ hiddenFilter g pat names) : x ∈ names := by
  unfold hiddenFilter at h
  by_cases hc : (!g.include_hidden && !((ishiddenOpt pat).getD false)) = true
  · rw [if_pos hc] at h
    exact (List.mem_filter.mp h).1
  · rw [if_neg hc] at h
    exact h

/-- Helper: the kept-predicate of the hidden filter holds exactly for the
empty name or a non-hidden name. -/
theorem pyKeep_getD_iff (x : Str) :
    (pyKeep x).getD false = true ↔ (x = [] ∨ ishidden x = false) := by
  cases x with
  | nil => simp [pyKeep]
  | cons c l =>
    simp [pyKeep, ishiddenOpt, ishidden]

/-- Helper: on a nonempty string the partial hidden test agrees with its
total restatement. -/
theorem ishiddenOpt_getD_cons (c : Char) (l : Str) :
    (ishiddenOpt (c :: l)).getD false = ishidden (c :: l) := by
  simp [ishiddenOpt, ishidden]

/-- Helper: a pattern containing a wildcard is nonempty. -/
theorem has_magic_ne_nil {p : Str} (h : has_magic p = true) : p ≠ [] := by
  intro hp
  rw [hp] at h
  exact Bool.false_ne_true h

/-- Helper: the root-flagged candidate list is the unflagged one with the
empty name prepended. -/
theorem globstarNames_true_eq (g : Config) (fs : FS) (fuel : Nat) (d : Str) :
    globstarNames g fs fuel d true = [] :: globstarNames g fs fuel d false := by
  unfold globstarNames
  rfl

/-- Helper: separator substitution of a nonempty path is nonempty. -/
theorem sepNorm_ne_nil (sep : Option Char) (l : Str) (h : l ≠ []) :
    sepNorm sep l ≠ [] := by
  cases sep with
  | none => exact h
  | some s =>
    simp [sepNorm]
    exact h

/-- Helper: joining with a nonempty second component is nonempty. -/
theorem osJoin_ne_nil (a b : Str) (h : b ≠ []) : osJoin a b ≠ [] := by
  unfold osJoin
  split
  · exact h
  · split
    · exact h
    · split
      · simp [h]
      · simp

/-- Helper: the path join of the model never produces an empty path from a
nonempty entry name. -/
theorem joinP_ne_nil (sep : Option Char) (a b : Str) (h : b ≠ []) :
    joinP sep a b ≠ [] :=
  sepNorm_ne_nil sep _ (osJoin_ne_nil a b h)

/-- Helper: on a wellformed filesystem every walked candidate name of the
recursive wildcard is nonempty (only the explicitly added root name is
empty). -/
theorem globstarNames_false_ne_nil (g : Config) (fs : FS) (fuel : Nat)
    (d : Str) (hfs : FSok fs) :
    ∀ x ∈ globstarNames g fs fuel d false, x ≠ [] := by
  intro x hx
  unfold globstarNames at hx
  rw [if_neg (by decide), List.nil_append, mem_flatMapL] at hx
  obtain ⟨te, hte, hmem⟩ := hx
  rw [List.mem_map] at hmem
  obtain ⟨s, hs, hjoin⟩ := hmem
  have hld := walkF_mem_listdir g fs fuel d te.1 te.2 (by
    cases te
    exact hte)
  have hsne : s ≠ [] := hfs te.1 te.2 hld s hs
  rw [← hjoin]
  exact joinP_ne_nil g.sep _ s hsne

/-- Helper: a wildcard-free segment translates to its literal tokens. -/
theorem translate_nomagic (l : Str) (h : has_magic l = false) :
    translate l = l.map Tok.lit := by
  have h2 := translate_nomagic_append l [] h
  rw [List.append_nil] at h2
  rw [h2, translate, List.append_nil]

/-- Helper: under a global depth bound on the directory graph,
resolve_pattern is independent of the fuel once the fuel covers the bound
(only the recursive-wildcard walk consumes fuel). -/
theorem resolve_stable (g : Config) (fs : FS) (n : Nat)
    (hb : ∀ d, WalkBounded g fs d n) (f1 f2 : Nat) (h1 : n ≤ f1) (h2 : n ≤ f2)
    (dn pattern : Str) (root : Bool) :
    resolve_pattern g fs f1 dn pattern root =
      resolve_pattern g fs f2 dn pattern root := by
  unfold resolve_pattern
  by_cases hm : has_magic pattern = false
  · rw [if_pos hm, if_pos hm]
  · rw [if_neg hm, if_neg hm]
    by_cases hg : pattern = ['*', '*']
    · rw [if_pos hg, if_pos hg]
      unfold globstarNames
      rw [walkF_stable g fs _ n (hb _) f1 f2 h1 h2]
    · rw [if_neg hg, if_neg hg]

/-- Helper: under a global depth bound on the directory graph, the glob
resolution is independent of the fuel once the fuel covers the bound: with
the strictly shrinking directory prefix this is the model's termination
statement for Globber._iglob. -/
theorem iglob_stable (g : Config) (fs : FS) (n : Nat)
    (hb : ∀ d, WalkBounded g fs d n) :
    ∀ (P : Str) (rc : Bool) (f1 f2 : Nat), n ≤ f1 → n ≤ f2 →
      iglobAux g fs f1 P rc = iglobAux g fs f2 P rc := by
  have main : ∀ (k : Nat) (P : Str), P.length ≤ k → ∀ (rc : Bool) (f1 f2 : Nat),
      n ≤ f1 → n ≤ f2 → iglobAux g fs f1 P rc = iglobAux g fs f2 P rc := by
    intro k
    induction k with
    | zero =>
      intro P hP rc f1 f2 hf1 hf2
      have hP0 : P = [] := List.length_eq_zero.mp (Nat.le_zero.mp hP)
      subst hP0
      unfold iglobAux
      rw [if_pos (show has_magic [] = false from rfl),
        if_pos (show has_magic [] = false from rfl)]
    | succ k ih =>
      intro P hP rc f1 f2 hf1 hf2
      unfold iglobAux
      by_cases hm : has_magic P = false
      · rw [if_pos hm, if_pos hm]
      · rw [if_neg hm, if_neg hm]
        by_cases hg : (osSplit P).1 ≠ P ∧ has_magic ((osSplit P).1) = true
        · rw [dif_pos hg, dif_pos hg]
          have hlt : (osSplit P).1.length < P.length :=
            osSplit_fst_length_lt _ hg.1
          rw [ih ((osSplit P).1) (by omega) false f1 f2 hf1 hf2]
          apply flatMapL_congr
          intro dg _
          rw [resolve_stable g fs n hb f1 f2 hf1 hf2]
        · rw [dif_neg hg, dif_neg hg]
          apply flatMapL_congr
          intro dg _
          rw [resolve_stable g fs n hb f1 f2 hf1 hf2]
  intro P rc f1 f2 h1 h2
  exact main P.length P le_rfl rc f1 f2 h1 h2

/-- Helper: the everything-fails filesystem is wellformed (it lists
nothing). -/
theorem fsNone_ok : FSok fsNone := by
  intro d l h
  exact absurd h (by simp [fsNone])

/-- Helper: every walk over the everything-fails filesystem is bounded by
one level. -/
theorem fsNone_bounded (g : Config) (d : Str) : WalkBounded g fsNone d 1 := by
  refine WalkBounded.step d 0 ?_
  intro names h
  exact absurd h (by simp [fsNone])

example : osSplit "a/b".toList = ("a".toList, "b".toList) := by decide
example : osSplit "/a".toList = ("/".toList, "a".toList) := by decide
example : osSplit "ab".toList = ([], "ab".toList) := by decide
example : osSplit "a/".toList = ("a".toList, []) := by decide
example : osSplit "//".toList = ("//".toList, []) := by decide
example : classEnd "ab]c".toList = some 2 := by decide
example : classEnd "]ab]".toList = some 3 := by decide
example : classEnd "!]a]".toList = some 3 := by decide
example : classEnd "ab".toList = none := by decide

/-- C2: a wildcard-free pattern short-circuits _iglob: it yields exactly the
one result (the pattern with empty captures) iff the capability set reports
the path exists (lexists semantics), else zero results; the outcome depends
only on the existence test, so no directory listing is performed and no error
is raised for a nonexistent path. -/
theorem c2_literal_fast_path (g : Config) (fs : FS) (fuel : Nat) (P : Str)
    (rc : Bool) (h : has_magic P = false) :
    iglobAux g fs fuel P rc =
      (if fs.lexists P = true then [(P, ([] : List Str))] else []) ∧
    ∀ (ld : Str → Option (List Str)) (isd il : Str → Bool),
      iglobAux g ⟨ld, isd, il, fs.lexists⟩ fuel P rc =
        iglobAux g fs fuel P rc := by
  have key : ∀ fs2 : FS, fs2.lexists = fs.lexists →
      iglobAux g fs2 fuel P rc =
        (if fs.lexists P = true then [(P, ([] : List Str))] else []) := by
    intro fs2 h2
    unfold iglobAux
    rw [if_pos h, h2]
  exact ⟨key fs rfl, fun ld isd il => by
    rw [key ⟨ld, isd, il, fs.lexists⟩ rfl, key fs rfl]⟩

/-- Witness for C2 on a concrete literal pattern and filesystem. -/
theorem c2_witness :
    iglobAux defaultConfig fsA 0 ['a'] true = [(['a'], [])] ∧
    iglobAux defaultConfig fsA 0 ['b'] true = [] := by
  constructor
  · rw [(c2_literal_fast_path defaultConfig fsA 0 ['a'] true (by decide)).1]
    decide
  · rw [(c2_literal_fast_path defaultConfig fsA 0 ['b'] true (by decide)).1]
    decide

/-- C5: the empty pattern (trailing-slash, directories-only case) resolves to
exactly one empty-name, empty-captures result iff the directory test
succeeds, else zero results, and in either case no directory listing is
performed: the outcome is unchanged under arbitrary listing, symlink and
existence operations. -/
theorem c5_trailing_slash_dir_only (g : Config) (fs : FS) (fuel : Nat)
    (dn : Str) (root : Bool) :
    resolve_pattern g fs fuel dn [] root =
      (if fs.isdir dn = true then [(([] : Str), ([] : List Str))] else []) ∧
    ∀ (ld : Str → Option (List Str)) (il le : Str → Bool),
      resolve_pattern g ⟨ld, fs.isdir, il, le⟩ fuel dn [] root =
        resolve_pattern g fs fuel dn [] root := by
  have key : ∀ fs2 : FS, fs2.isdir = fs.isdir →
      resolve_pattern g fs2 fuel dn [] root =
        (if fs.isdir dn = true then [(([] : Str), ([] : List Str))] else []) := by
    intro fs2 h2
    unfold resolve_pattern
    rw [if_pos (show has_magic [] = false from rfl),
      if_pos (show ([] : Str) = [] from rfl), h2]
  exact ⟨key fs rfl, fun ld il le => by
    rw [key ⟨ld, fs.isdir, il, le⟩ rfl, key fs rfl]⟩

/-- C6: an opening bracket with no closing bracket before the end of the
segment is not an error: it is emitted as an escaped literal — no wildcard
token and no capture group — and the remaining characters after it are still
translated normally. -/
theorem c6_unclosed_class_literal (rest : Str) (h : classEnd rest = none) :
    translate ('[' :: rest) = Tok.lit '[' :: translate rest ∧
    countGroups (translate ('[' :: rest)) = countGroups (translate rest) := by
  have key : translate ('[' :: rest) = Tok.lit '[' :: translate rest := by
    rw [translate, if_neg (by decide), if_neg (by decide),
      if_pos (show ('[' : Char) = '[' from rfl), h]
  refine ⟨key, ?_⟩
  rw [key]
  simp [countGroups]

/-- Witness for C6 on a concrete unclosed class. -/
theorem c6_witness :
    translate ('[' :: ['a', 'b']) = Tok.lit '[' :: translate ['a', 'b'] ∧
    countGroups (translate ('[' :: ['a', 'b'])) =
      countGroups (translate ['a', 'b']) :=
  c6_unclosed_class_literal ['a', 'b'] (by decide)

/-- C10: the partial hidden test is guarded at every reachable call: it is
undefined exactly on the empty name; the filter predicate short-circuits, so
it is total and keeps the empty name; the pattern-side call happens only for
wildcard patterns, which are nonempty (as is the reset one-star pattern); and
the empty candidate added for the recursive-wildcard root always survives the
hidden filter — resolution never indexes into an empty string. -/
theorem c10_partial_ishidden_guarded :
    ishiddenOpt ([] : Str) = none ∧
    pyKeep ([] : Str) = some true ∧
    (∀ x : Str, (pyKeep x).isSome = true) ∧
    (∀ p : Str, has_magic p = true → (ishiddenOpt p).isSome = true) ∧
    (ishiddenOpt ['*']).isSome = true ∧
    (∀ (g : Config) (pat : Str) (names : List Str),
      [] ∈ names → [] ∈ hiddenFilter g pat names) := by
  refine ⟨rfl, rfl, ?_, ?_, rfl, ?_⟩
  · intro x
    cases x with
    | nil => rfl
    | cons c l => simp [pyKeep, ishiddenOpt]
  · intro p hp
    cases p with
    | nil => exact absurd hp (by decide)
    | cons c l => simp [ishiddenOpt]
  · intro g pat names hmem
    unfold hiddenFilter
    split
    · rw [List.mem_filter]
      exact ⟨hmem, rfl⟩
    · exact hmem

/-- Witness for C10 at concrete inputs. -/
theorem c10_witness :
    (pyKeep (['a'] : Str)).isSome = true ∧
    (ishiddenOpt (['*'] : Str)).isSome = true ∧
    [] ∈ hiddenFilter defaultConfig ['*'] [[]] :=
  ⟨c10_partial_ishidden_guarded.2.2.1 ['a'],
   c10_partial_ishidden_guarded.2.2.2.1 ['*'] (by decide),
   c10_partial_ishidden_guarded.2.2.2.2.2 defaultConfig ['*'] [[]]
     (List.mem_singleton.mpr rfl)⟩

/-- C7: a failing directory listing is non-fatal and contributes zero
entries: a wildcard pattern resolving against the unreadable directory
returns the empty result list, the recursive-wildcard walk yields nothing for
it and in general only pairs coming from successful listings (so the walk
skips unreadable directories and continues elsewhere), and the recursive
wildcard still returns its root entry when asked; absence of matches is
always the empty result list, never an error. -/
theorem c7_listdir_error_nonfatal (g : Config) (fs : FS) (fuel : Nat)
    (dn pattern : Str) (root : Bool) (hdn : dn ≠ [])
    (herr : fs.listdir dn = none) :
    (has_magic pattern = true → pattern ≠ ['*', '*'] →
      resolve_pattern g fs fuel dn pattern root = []) ∧
    walkF g fs fuel dn = [] ∧
    (∀ top t es, (t, es) ∈ walkF g fs fuel top → fs.listdir t = some es) ∧
    resolve_pattern g fs fuel dn ['*', '*'] true =
      [(([] : Str), [([] : Str)])] ∧
    resolve_pattern g fs fuel dn ['*', '*'] false = [] := by
  have hwalk : walkF g fs fuel dn = [] := walkF_listdir_none g fs fuel dn herr
  have hgnT : globstarNames g fs fuel dn true = [([] : Str)] := by
    unfold globstarNames
    rw [hwalk]
    rfl
  have hgnF : globstarNames g fs fuel dn false = [] := by
    unfold globstarNames
    rw [hwalk]
    rfl
  refine ⟨?_, hwalk, walkF_mem_listdir g fs fuel, ?_, ?_⟩
  · intro hm hne
    rw [resolve_pattern_magic_other g fs fuel dn pattern root hm hne,
      if_neg hdn, herr]
  · rw [resolve_pattern_globstar, if_neg hdn, hgnT, hiddenFilter_nil_cons,
      hiddenFilter_nil, filterNames_star, List.map_cons, List.map_nil,
      normPath_nil]
  · rw [resolve_pattern_globstar, if_neg hdn, hgnF, hiddenFilter_nil,
      filterNames_star, List.map_nil]

/-- Witness for C7 on the everything-fails filesystem. -/
theorem c7_witness :
    resolve_pattern defaultConfig fsNone 3 ['d'] ['?'] false = [] ∧
    walkF defaultConfig fsNone 3 ['d'] = [] ∧
    resolve_pattern defaultConfig fsNone 3 ['d'] ['*', '*'] true =
      [(([] : Str), [([] : Str)])] := by
  have h := c7_listdir_error_nonfatal defaultConfig fsNone 3 ['d'] ['?'] false
    (by decide) rfl
  exact ⟨h.1 (by decide) (by decide), h.2.1, h.2.2.2.1⟩

/-- C8: termination: the head of the path split is always a prefix, so
whenever the guard dirname ≠ pathname lets the resolver recurse, the
directory prefix is strictly shorter — never an unchanged pattern; and on a
depth-bounded (finite, acyclic) directory graph both the walk and the whole
resolution are independent of the fuel once it covers the bound, i.e. they
terminate with a finite result sequence. -/
theorem c8_terminates_on_finite_fs :
    (∀ p : Str, (osSplit p).1 ≠ p → (osSplit p).1.length < p.length) ∧
    (∀ (g : Config) (fs : FS) (top : Str) (n f1 f2 : Nat),
      WalkBounded g fs top n → n ≤ f1 → n ≤ f2 →
      walkF g fs f1 top = walkF g fs f2 top) ∧
    (∀ (g : Config) (fs : FS) (n : Nat) (P : Str) (rc : Bool) (f1 f2 : Nat),
      (∀ d, WalkBounded g fs d n) → n ≤ f1 → n ≤ f2 →
      iglobAux g fs f1 P rc = iglobAux g fs f2 P rc) :=
  ⟨osSplit_fst_length_lt,
   fun g fs top n f1 f2 hb h1 h2 => walkF_stable g fs top n hb f1 f2 h1 h2,
   fun g fs n P rc f1 f2 hb h1 h2 => iglob_stable g fs n hb P rc f1 f2 h1 h2⟩

/-- Witness for C8 at concrete inputs. -/
theorem c8_witness :
    (osSplit ['a', '/', 'b']).1.length < (['a', '/', 'b'] : Str).length ∧
    walkF defaultConfig fsNone 1 ['d'] = walkF defaultConfig fsNone 2 ['d'] ∧
    iglobAux defaultConfig fsNone 1 ['*'] true =
      iglobAux defaultConfig fsNone 2 ['*'] true :=
  ⟨c8_terminates_on_finite_fs.1 ['a', '/', 'b'] (by decide),
   c8_terminates_on_finite_fs.2.1 defaultConfig fsNone ['d'] 1 1 2
     (fsNone_bounded defaultConfig ['d']) (by decide) (by decide),
   c8_terminates_on_finite_fs.2.2 defaultConfig fsNone 1 ['*'] true 1 2
     (fun d => fsNone_bounded defaultConfig d) (by decide) (by decide)⟩

/-- C1: the recursive wildcard includes the empty name (the base directory
itself) among its candidates exactly when globstar_with_root is set: the
root-flagged resolution is the unflagged one with the empty-name result
prepended, and on a wellformed filesystem the unflagged resolution never
yields the empty name; _iglob always passes globstar_with_root = not
rootcall, so a recursive-wildcard basename of the caller's root call never
yields the base directory itself, while the same segment resolved inside a
recursive (non-root) directory call does include it — files directly inside
the starting directory. -/
theorem c1_globstar_root_flag (g : Config) (fs : FS) (fuel : Nat) (dn : Str)
    (hfs : FSok fs) :
    (resolve_pattern g fs fuel dn ['*', '*'] true =
      (([] : Str), [([] : Str)]) ::
        resolve_pattern g fs fuel dn ['*', '*'] false) ∧
    (∀ gs, (([] : Str), gs) ∉ resolve_pattern g fs fuel dn ['*', '*'] false) ∧
    (∀ (P : Str) (rc : Bool), has_magic P = true →
      ((osSplit P).1 ≠ P ∧ has_magic ((osSplit P).1) = true →
        iglobAux g fs fuel P rc =
          flatMapL (fun dg =>
            (resolve_pattern g fs fuel dg.1 ((osSplit P).2) (!rc)).map
              (fun ng => (joinP g.sep dg.1 ng.1, dg.2 ++ ng.2)))
            (iglobAux g fs fuel ((osSplit P).1) false)) ∧
      (¬ ((osSplit P).1 ≠ P ∧ has_magic ((osSplit P).1) = true) →
        iglobAux g fs fuel P rc =
          flatMapL (fun dg =>
            (resolve_pattern g fs fuel dg.1 ((osSplit P).2) (!rc)).map
              (fun ng => (joinP g.sep dg.1 ng.1, dg.2 ++ ng.2)))
            [((osSplit P).1, ([] : List Str))])) := by
  refine ⟨?_, ?_, ?_⟩
  · rw [resolve_pattern_globstar, resolve_pattern_globstar,
      globstarNames_true_eq, hiddenFilter_nil_cons, filterNames_star,
      List.map_cons, normPath_nil, ← filterNames_star]
  · intro gs hmem
    rw [resolve_pattern_globstar] at hmem
    have h2 := (mem_filterNames hmem).1
    have h4 := hiddenFilter_sub h2
    exact globstarNames_false_ne_nil g fs fuel _ hfs [] h4 rfl
  · intro P rc hm
    constructor
    · intro hg
      conv_lhs => rw [iglobAux]
      rw [if_neg (by simp [hm]), dif_pos hg]
    · intro hg
      conv_lhs => rw [iglobAux]
      rw [if_neg (by simp [hm]), dif_neg hg]

/-- Witness for C1 on the everything-fails filesystem. -/
theorem c1_witness :
    resolve_pattern defaultConfig fsNone 1 ['d'] ['*', '*'] true =
      (([] : Str), [([] : Str)]) ::
        resolve_pattern defaultConfig fsNone 1 ['d'] ['*', '*'] false ∧
    ∀ gs, (([] : Str), gs) ∉
      resolve_pattern defaultConfig fsNone 1 ['d'] ['*', '*'] false :=
  ⟨(c1_globstar_root_flag defaultConfig fsNone 1 ['d'] fsNone_ok).1,
   (c1_globstar_root_flag defaultConfig fsNone 1 ['d'] fsNone_ok).2.1⟩

/-- C4: for a wildcard pattern other than the recursive segment, a resolved
name whose first code unit is a dot can only occur when hidden inclusion is
configured or the pattern itself starts with a dot — i.e. hidden entries are
excluded from the candidates otherwise and never appear in the results. -/
theorem c4_hidden_excluded_unless (g : Config) (fs : FS) (fuel : Nat)
    (dn pattern : Str) (root : Bool) (r : Str × List Str)
    (hm : has_magic pattern = true) (hne : pattern ≠ ['*', '*'])
    (hr : r ∈ resolve_pattern g fs fuel dn pattern root)
    (hh : ishidden r.1 = true) :
    g.include_hidden = true ∨ ishidden pattern = true := by
  rw [resolve_pattern_magic_other g fs fuel dn pattern root hm hne] at hr
  by_contra hcon
  push_neg at hcon
  obtain ⟨hih, hpat⟩ := hcon
  have hih2 : g.include_hidden = false := by
    revert hih
    cases g.include_hidden <;> simp
  have hpat2 : ishidden pattern = false := by
    revert hpat
    cases hp : ishidden pattern <;> simp
  cases hl : fs.listdir (if dn = [] then ['.'] else dn) with
  | none =>
    rw [hl] at hr
    exact List.not_mem_nil r hr
  | some names =>
    rw [hl] at hr
    have hr2 : r ∈ filterNames g (hiddenFilter g pattern names) pattern := hr
    have h2 := (mem_filterNames hr2).1
    obtain ⟨c, l, hcl⟩ : ∃ c l, pattern = c :: l := by
      cases pattern with
      | nil => exact absurd hm (by decide)
      | cons c l => exact ⟨c, l, rfl⟩
    have hcond : (!g.include_hidden && !((ishiddenOpt pattern).getD false)) = true := by
      rw [hih2, hcl, ishiddenOpt_getD_cons, ← hcl, hpat2]
      rfl
    unfold hiddenFilter at h2
    rw [if_pos hcond] at h2
    have h3 := (List.mem_filter.mp h2).2
    rcases (pyKeep_getD_iff r.1).mp h3 with h4 | h4
    · rw [h4] at hh
      exact absurd hh (by decide)
    · rw [h4] at hh
      exact absurd hh (by decide)

/-- Helper: concrete evaluation of the resolver with hidden inclusion on a
one-entry hidden listing. -/
theorem c4fs_eval :
    resolve_pattern gInc fsHid 0 ['d'] ['*'] false =
      [(['.', 'h'], [['.', 'h']])] := by
  rw [resolve_pattern_magic_other gInc fsHid 0 ['d'] ['*'] false (by decide)
    (by decide)]
  show filterNames gInc (hiddenFilter gInc ['*'] [['.', 'h']]) ['*'] = _
  rw [filterNames_star]
  decide

/-- Witness for C4: with hidden inclusion configured, a dotted name does
appear and the left disjunct holds. -/
theorem c4_witness : gInc.include_hidden = true ∨ ishidden ['*'] = true :=
  c4_hidden_excluded_unless gInc fsHid 0 ['d'] ['*'] false
    (['.', 'h'], [['.', 'h']]) (by decide) (by decide)
    (by rw [c4fs_eval]; exact List.mem_singleton.mpr rfl) (by decide)

/-- C9: the hidden filtering of the recursive wildcard segment inspects only
the first code unit of the full relative candidate name: universally, with
hidden inclusion off, no result name starts with a dot; and on the concrete
tree b holding a and .t, b/a holding .h, b/a/.h holding x, the direct hidden
entry .t is dropped while the nested hidden names a/.h and a/.h/x are
returned as matches — the walk does descend into the hidden directory to
produce them. -/
theorem c9_hidden_first_unit_only :
    (∀ (g : Config) (fs : FS) (fuel : Nat) (dn : Str) (root : Bool)
        (r : Str × List Str), g.include_hidden = false →
        r ∈ resolve_pattern g fs fuel dn ['*', '*'] root →
        ishidden r.1 = false) ∧
    resolve_pattern defaultConfig fs9 5 ['b'] ['*', '*'] false =
      [(['a'], [['a']]),
       (['a', '/', '.', 'h'], [['a', '/', '.', 'h']]),
       (['a', '/', '.', 'h', '/', 'x'], [['a', '/', '.', 'h', '/', 'x']])] := by
  constructor
  · intro g fs fuel dn root r hih hr
    rw [resolve_pattern_globstar] at hr
    have h2 := (mem_filterNames hr).1
    have hcond : (!g.include_hidden && !((ishiddenOpt ['*']).getD false)) = true := by
      rw [hih]
      decide
    unfold hiddenFilter at h2
    rw [if_pos hcond] at h2
    have h3 := (List.mem_filter.mp h2).2
    rcases (pyKeep_getD_iff r.1).mp h3 with h4 | h4
    · rw [h4]
      rfl
    · exact h4
  · rw [resolve_pattern_globstar, filterNames_star]
    decide

/-- Witness for C9 applying the universal part at a concrete result. -/
theorem c9_witness : ishidden (['a'] : Str) = false :=
  c9_hidden_first_unit_only.1 defaultConfig fs9 5 ['b'] false (['a'], [['a']])
    rfl (by
      rw [c9_hidden_first_unit_only.2]
      exact List.mem_cons_self _ _)

/-- C3: a segment holding exactly one star and no other wildcard (a literal
prefix, the star, a literal suffix) matches a name with exactly one capture;
the capture is the name with the literal prefix and suffix stripped, and
prefix plus capture plus suffix reconstructs the name. -/
theorem c3_single_star_reconstruction (pre suf N : Str) (gs : List Str)
    (hpre : has_magic pre = false) (hsuf : has_magic suf = false)
    (h : matchSeg true (translate (pre ++ '*' :: suf)) N = some gs) :
    ∃ cap, gs = [cap] ∧ pre ++ cap ++ suf = N ∧
      cap = (N.drop pre.length).take (N.length - pre.length - suf.length) := by
  rw [translate_nomagic_append pre ('*' :: suf) hpre, translate_star_cons,
    translate_nomagic suf hsuf, matchSeg_lit_append] at h
  by_cases hp : pre <+: N
  · rw [if_pos hp, matchSeg_star_lits] at h
    obtain ⟨N2, hN2⟩ := hp
    subst hN2
    rw [List.drop_left] at h
    by_cases hs2 : suf <:+ N2
    · rw [if_pos hs2] at h
      obtain ⟨t, ht⟩ := hs2
      subst ht
      have htake : (t ++ suf).take ((t ++ suf).length - suf.length) = t := by
        rw [List.length_append, Nat.add_sub_cancel, List.take_left]
      rw [htake] at h
      injection h with h2
      refine ⟨t, h2.symm, by rw [List.append_assoc], ?_⟩
      rw [List.drop_left, List.length_append, List.length_append]
      have hlen : pre.length + (t.length + suf.length) - pre.length -
          suf.length = t.length := by omega
      rw [hlen, List.take_left]
    · rw [if_neg hs2] at h
      exact absurd h (by simp)
  · rw [if_neg hp] at h
    exact absurd h (by simp)

/-- Witness for C3 on the pattern with literal prefix a, one star, literal
suffix b, matched against the name aXb. -/
theorem c3_witness :
    ∃ cap, ([['X']] : List Str) = [cap] ∧
      ['a'] ++ cap ++ ['b'] = ['a', 'X', 'b'] ∧
      cap = ((['a', 'X', 'b'] : Str).drop (['a'] : Str).length).take
        ((['a', 'X', 'b'] : Str).length - (['a'] : Str).length -
          (['b'] : Str).length) :=
  c3_single_star_reconstruction ['a'] ['b'] ['a', 'X', 'b'] [['X']]
    (by decide) (by decide)
    (by
      rw [translate_nomagic_append ['a'] ('*' :: ['b']) (by decide),
        translate_star_cons, translate_nomagic ['b'] (by decide),
        matchSeg_lit_append, if_pos (by decide), matchSeg_star_lits,
        if_pos (by decide)]
      rfl)

end Glob2
